import Mathlib

/-!
# Round-robin scheduling policy (`RRSchedulingPolicy`)

A shallow embedding of `src/src/RRSchedulingPolicy.cpp` and of the class
declared in `src/include/RRSchedulingPolicy.hpp`.

* `Pid` is `typedef int Pid;`.  The C++ `int` values (pids, the quantum and the
  time-slice counters) are embedded as `Int`.  The only arithmetic of the
  class is the decrement `timeSliceMap[pid]--`; it leaves the range of `int`
  only for an entry equal to `INT_MIN`, where the C++ program has undefined
  behaviour, so no wrap-around is modelled.  The properties of the exhausting
  step of `dispatch` that are stated for arbitrary states therefore assume
  that the entry of the head is above `INT_MIN`.
* `std::queue<Pid>` is a `List Pid` whose head is the front of the queue:
  `push` appends at the end, `pop` drops the head, `front` reads the head.
* `std::unordered_map<Pid, int>` is a function `Pid → Option Int`
  (`none` = no entry).  `operator[]` value-initialises a missing entry to `0`.
* The sentinel `IDLE` is declared in `SchedulingPolicy.hpp`, which is not
  among the sources; it is a parameter of `dispatch`.
-/

/-- Process identifiers: `typedef int Pid;`. -/
abbrev Pid := Int

/-- The least value of the C++ type `int` (32 bits, two's complement); the
decrement of an `int` holding it overflows. -/
def INT_MIN : Int := -2147483648

/-- The type of the member `timeSliceMap`, a `std::unordered_map<Pid, int>`. -/
abbrev TimeSliceMap := Pid → Option Int

/-- The empty map (a default-constructed or cleared `unordered_map`). -/
def TimeSliceMap.empty : TimeSliceMap := fun _ => none

/-- The value read through `m[pid]`: the stored value, or the
value-initialised `0` that `operator[]` inserts when there is no entry. -/
def TimeSliceMap.index (m : TimeSliceMap) (pid : Pid) : Int :=
  (m pid).getD 0

/-- The map after `m[pid] = v`. -/
def TimeSliceMap.assign (m : TimeSliceMap) (pid : Pid) (v : Int) : TimeSliceMap :=
  Function.update m pid (some v)

/-- The private data members of `class RRSchedulingPolicy`. -/
structure RRSchedulingPolicy where
  /-- The member `queue<Pid> readyQueue`, front first. -/
  readyQueue : List Pid
  /-- The member `unordered_map<Pid, int> timeSliceMap`. -/
  timeSliceMap : TimeSliceMap
  /-- The member `int quantum`. -/
  quantum : Int

namespace RRSchedulingPolicy

/-- The method `resetPolicy()`: swap the ready queue with an empty queue and
clear the time-slice map. -/
def resetPolicy (s : RRSchedulingPolicy) : RRSchedulingPolicy :=
  { readyQueue := [], timeSliceMap := TimeSliceMap.empty, quantum := s.quantum }

/-- The constructor `RRSchedulingPolicy(int quantum)`: the containers are
default-constructed, `quantum` is initialised, then `resetPolicy()` runs. -/
def new (quantum : Int) : RRSchedulingPolicy :=
  resetPolicy { readyQueue := [], timeSliceMap := TimeSliceMap.empty, quantum := quantum }

/-- The method `newProcess(pid)`: `readyQueue.push(pid); timeSliceMap[pid] = quantum;`. -/
def newProcess (s : RRSchedulingPolicy) (pid : Pid) : RRSchedulingPolicy :=
  { readyQueue := s.readyQueue ++ [pid]
    timeSliceMap := s.timeSliceMap.assign pid s.quantum
    quantum := s.quantum }

/-- The method `dispatch()`, returning the dispatched pid and the state after
the call. -/
def dispatch (IDLE : Pid) (s : RRSchedulingPolicy) : Pid × RRSchedulingPolicy :=
  match s.readyQueue with
  | [] => (IDLE, s)                                     -- if (readyQueue.empty()) return IDLE;
  | pid :: rest =>                                      -- Pid pid = readyQueue.front();
    -- timeSliceMap[pid]--;
    let m1 := s.timeSliceMap.assign pid (s.timeSliceMap.index pid - 1)
    if m1.index pid ≤ 0 then                            -- if (timeSliceMap[pid] <= 0)
      let q1 := rest ++ [pid]                           -- readyQueue.pop(); readyQueue.push(pid);
      let pid2 := q1.head (by simp [q1])                -- pid = readyQueue.front();
      let m2 := m1.assign pid2 s.quantum                -- timeSliceMap[pid] = quantum;
      (pid2, { readyQueue := q1, timeSliceMap := m2, quantum := s.quantum })
    else
      (pid, { readyQueue := s.readyQueue, timeSliceMap := m1, quantum := s.quantum })

/-- The method `preempt()`: `return false;`, paired with the untouched state. -/
def preempt (s : RRSchedulingPolicy) : Bool × RRSchedulingPolicy :=
  (false, s)

/-- The calls `newProcess(p)` for the pids of `ps`, in list order. -/
def submit (s : RRSchedulingPolicy) (ps : List Pid) : RRSchedulingPolicy :=
  ps.foldl newProcess s

/-- The state after `k` consecutive `dispatch()` calls. -/
def dispatchTimes (IDLE : Pid) (s : RRSchedulingPolicy) : Nat → RRSchedulingPolicy
  | 0 => s
  | k + 1 => (dispatch IDLE (dispatchTimes IDLE s k)).2

/-- The value returned by the `i`-th of a run of consecutive `dispatch()`
calls, counted from `i = 0`. -/
def nthDispatch (IDLE : Pid) (s : RRSchedulingPolicy) (i : Nat) : Pid :=
  (dispatch IDLE (dispatchTimes IDLE s i)).1

/-- The values returned by the first `k` consecutive `dispatch()` calls. -/
def dispatchTrace (IDLE : Pid) (s : RRSchedulingPolicy) (k : Nat) : List Pid :=
  (List.range k).map (nthDispatch IDLE s)

/-- A concrete state with an empty ready queue and a left-over table entry. -/
def staleState : RRSchedulingPolicy :=
  { readyQueue := []
    timeSliceMap := TimeSliceMap.empty.assign 7 2
    quantum := 4 }

/-- Modelled from the spec: the `dispatch()` algorithm as section 4.2 words it,
which differs from the source in step 3 only: after the rotation it is the
entry of the exhausted pid (the one moved to the tail) that is reset to the
quantum, and the new head is re-read just to be returned.  The spec does not
say how a missing entry is read; it is read as in the source (`0`). -/
def specDispatch (IDLE : Pid) (s : RRSchedulingPolicy) : Pid × RRSchedulingPolicy :=
  match s.readyQueue with
  | [] => (IDLE, s)                  -- 1. if ReadyQueue is empty, return IDLE
  | pid :: rest =>                   -- 2. pid is the head; decrement TimeSliceTable[pid]
    let m1 := s.timeSliceMap.assign pid (s.timeSliceMap.index pid - 1)
    if m1.index pid ≤ 0 then         -- 3. the decremented remaining quantum is zero or less
      let q1 := rest ++ [pid]        --    remove pid from the head, re-append it at the tail
      let m2 := m1.assign pid s.quantum   -- reset TimeSliceTable[pid] = Quantum
      (q1.head (by simp [q1]), { readyQueue := q1, timeSliceMap := m2, quantum := s.quantum })
    else
      (pid, { readyQueue := s.readyQueue, timeSliceMap := m1, quantum := s.quantum })

/-- One call of the public interface of the policy. -/
inductive Call where
  | newProcess (pid : Pid)
  | dispatch
  | preempt
  | resetPolicy
  deriving DecidableEq, Repr

/-- What a call of the interface hands back to the caller. -/
inductive Ret where
  | void
  | pid (p : Pid)
  | bool (b : Bool)
  deriving DecidableEq, Repr

/-- The effect of one interface call, for a given implementation `d` of
`dispatch()`: the returned value and the state after the call. -/
def callWith (d : RRSchedulingPolicy → Pid × RRSchedulingPolicy) (s : RRSchedulingPolicy) :
    Call → Ret × RRSchedulingPolicy
  | Call.newProcess pid => (Ret.void, newProcess s pid)
  | Call.dispatch => (Ret.pid (d s).1, (d s).2)
  | Call.preempt => (Ret.bool (preempt s).1, (preempt s).2)
  | Call.resetPolicy => (Ret.void, resetPolicy s)

/-- A sequence of interface calls, run from state `s`: the returned values in
call order and the final state. -/
def runWith (d : RRSchedulingPolicy → Pid × RRSchedulingPolicy) :
    RRSchedulingPolicy → List Call → List Ret × RRSchedulingPolicy
  | s, [] => ([], s)
  | s, c :: cs =>
    ((callWith d s c).1 :: (runWith d (callWith d s c).2 cs).1,
      (runWith d (callWith d s c).2 cs).2)

/-- A sequence of calls run on the source's `dispatch()`. -/
def runCalls (IDLE : Pid) (s : RRSchedulingPolicy) (cs : List Call) :
    List Ret × RRSchedulingPolicy :=
  runWith (dispatch IDLE) s cs

/-- The same sequence of calls run on the algorithm as the spec words it. -/
def specRunCalls (IDLE : Pid) (s : RRSchedulingPolicy) (cs : List Call) :
    List Ret × RRSchedulingPolicy :=
  runWith (specDispatch IDLE) s cs

/-- Whether every `newProcess(pid)` of the call sequence `cs`, run from `s`,
submits a pid that is not in the ready queue at the time of the call. -/
def freshSubmissions (IDLE : Pid) : RRSchedulingPolicy → List Call → Bool
  | _, [] => true
  | s, c :: cs =>
    (match c with
      | Call.newProcess pid => decide (pid ∉ s.readyQueue)
      | _ => true) && freshSubmissions IDLE (callWith (dispatch IDLE) s c).2 cs

/-- A concrete state whose queued head pid 1 has no time-slice entry. -/
def orphanState : RRSchedulingPolicy :=
  { readyQueue := [1, 2]
    timeSliceMap := TimeSliceMap.empty
    quantum := 3 }

/-- A concrete mixed sequence of interface calls. -/
def sampleCalls : List Call :=
  [Call.newProcess 4, Call.dispatch, Call.newProcess 9, Call.preempt, Call.dispatch,
    Call.dispatch, Call.resetPolicy, Call.newProcess 6, Call.newProcess 4, Call.dispatch,
    Call.dispatch, Call.dispatch]

/-- The relation kept between a state `a` of the source and a state `b` of the
algorithm as the spec words it, run on the same calls: same ready queue, same
quantum, the same remaining slice for the head of the queue, and in `b` a full
quantum for every queued pid other than the head. -/
def SameSchedule (a b : RRSchedulingPolicy) : Prop :=
  a.readyQueue = b.readyQueue ∧ a.quantum = b.quantum ∧
    ∀ h t, a.readyQueue = h :: t →
      a.timeSliceMap.index h = b.timeSliceMap.index h ∧
        ∀ p ∈ t, p ≠ h → b.timeSliceMap.index p = b.quantum

end RRSchedulingPolicy

open RRSchedulingPolicy

/-! ## Basic facts about the containers -/

theorem TimeSliceMap.assign_same (m : TimeSliceMap) (pid : Pid) (v : Int) :
    m.assign pid v pid = some v := by
  simp [TimeSliceMap.assign]

theorem TimeSliceMap.assign_other (m : TimeSliceMap) (pid : Pid) (v : Int) (q : Pid)
    (h : q ≠ pid) : m.assign pid v q = m q := by
  simp [TimeSliceMap.assign, Function.update, h]

theorem TimeSliceMap.index_assign_same (m : TimeSliceMap) (pid : Pid) (v : Int) :
    (m.assign pid v).index pid = v := by
  simp [TimeSliceMap.index, TimeSliceMap.assign]

theorem TimeSliceMap.index_of_some (m : TimeSliceMap) (pid : Pid) (v : Int)
    (h : m pid = some v) : m.index pid = v := by
  simp [TimeSliceMap.index, h]

/-! ## One `dispatch()` call -/

theorem RRSchedulingPolicy.dispatch_of_empty (IDLE : Pid) (s : RRSchedulingPolicy)
    (h : s.readyQueue = []) : dispatch IDLE s = (IDLE, s) := by
  cases s with
  | mk q m Q =>
    simp only at h
    subst h
    rfl

theorem RRSchedulingPolicy.dispatch_of_exhausted (IDLE : Pid) (s : RRSchedulingPolicy)
    (pid : Pid) (rest : List Pid) (hq : s.readyQueue = pid :: rest)
    (hv : s.timeSliceMap.index pid ≤ 1) :
    dispatch IDLE s =
      ((rest ++ [pid]).head (by simp),
        { readyQueue := rest ++ [pid]
          timeSliceMap :=
            (s.timeSliceMap.assign pid (s.timeSliceMap.index pid - 1)).assign
              ((rest ++ [pid]).head (by simp)) s.quantum
          quantum := s.quantum }) := by
  cases s with
  | mk q m Q =>
    simp only at hq hv
    subst hq
    have h0 : m.index pid - 1 ≤ 0 := by omega
    simp [dispatch, TimeSliceMap.index_assign_same, h0]

theorem RRSchedulingPolicy.dispatch_of_remaining (IDLE : Pid) (s : RRSchedulingPolicy)
    (pid : Pid) (rest : List Pid) (hq : s.readyQueue = pid :: rest)
    (hv : 1 < s.timeSliceMap.index pid) :
    dispatch IDLE s =
      (pid,
        { readyQueue := s.readyQueue
          timeSliceMap := s.timeSliceMap.assign pid (s.timeSliceMap.index pid - 1)
          quantum := s.quantum }) := by
  cases s with
  | mk q m Q =>
    simp only at hq hv
    subst hq
    have h0 : ¬ m.index pid - 1 ≤ 0 := by omega
    simp [dispatch, TimeSliceMap.index_assign_same, h0]

/-! ## Submitting a list of processes -/

theorem RRSchedulingPolicy.submit_append_one (s : RRSchedulingPolicy) (ps : List Pid) (p : Pid) :
    submit s (ps ++ [p]) = newProcess (submit s ps) p := by
  simp [submit, List.foldl_append]

theorem RRSchedulingPolicy.submit_spec (s : RRSchedulingPolicy) (ps : List Pid) :
    (submit s ps).readyQueue = s.readyQueue ++ ps ∧ (submit s ps).quantum = s.quantum ∧
      ∀ p ∈ ps, (submit s ps).timeSliceMap p = some s.quantum := by
  induction ps using List.reverseRecOn with
  | nil => simp [submit]
  | append_singleton ps a ih =>
    obtain ⟨h1, h2, h3⟩ := ih
    rw [submit_append_one]
    refine ⟨?_, ?_, ?_⟩
    · simp [newProcess, h1]
    · simp [newProcess, h2]
    · intro p hp
      by_cases hpa : p = a
      · subst hpa
        simp [newProcess, TimeSliceMap.assign_same, h2]
      · have hp2 : p ∈ ps := by
          rcases List.mem_append.mp hp with h | h
          · exact h
          · exact absurd (List.mem_singleton.mp h) hpa
        simp only [newProcess]
        rw [TimeSliceMap.assign_other _ _ _ _ hpa]
        exact h3 p hp2

/-! ## Consecutive `dispatch()` calls after the submissions -/

theorem RRSchedulingPolicy.rotate_one_cons (pid : Pid) (rest : List Pid) :
    (pid :: rest).rotate 1 = rest ++ [pid] := by
  simp [List.rotate_cons_succ]

/-- The state after `k` dispatch calls on a policy with quantum `Q ≥ 1` to which
the pids `ps` were submitted: the queue is `ps` rotated `k / Q` times and the
head has `Q - k % Q` cycles left. -/
theorem RRSchedulingPolicy.dispatchTimes_submit (IDLE : Pid) (Q : Nat) (hQ : 0 < Q)
    (ps : List Pid) (k : Nat) :
    (dispatchTimes IDLE (submit (new Q) ps) k).readyQueue = ps.rotate (k / Q) ∧
      (dispatchTimes IDLE (submit (new Q) ps) k).quantum = Q ∧
      ∀ pid rest, (dispatchTimes IDLE (submit (new Q) ps) k).readyQueue = pid :: rest →
        (dispatchTimes IDLE (submit (new Q) ps) k).timeSliceMap pid
          = some ((Q : Int) - ((k % Q : Nat) : Int)) := by
  induction k with
  | zero =>
    obtain ⟨h1, h2, h3⟩ := submit_spec (new Q) ps
    have hq : (submit (new Q) ps).readyQueue = ps := by simpa [new, resetPolicy] using h1
    refine ⟨by simpa [dispatchTimes] using hq, by simpa [dispatchTimes, new, resetPolicy] using h2, ?_⟩
    intro pid rest hpr
    simp only [dispatchTimes] at hpr ⊢
    have hmem : pid ∈ ps := by
      rw [← hq, hpr]
      exact List.mem_cons_self _ _
    have := h3 pid hmem
    simpa [new, resetPolicy] using this
  | succ k ih =>
    obtain ⟨h1, h2, h3⟩ := ih
    generalize hs : dispatchTimes IDLE (submit (new Q) ps) k = s at h1 h2 h3
    have hstep : dispatchTimes IDLE (submit (new Q) ps) (k + 1) = (dispatch IDLE s).2 := by
      simp [dispatchTimes, hs]
    rw [hstep]
    have hlt : k % Q < Q := Nat.mod_lt _ hQ
    have hdm : Q * (k / Q) + k % Q = k := Nat.div_add_mod k Q
    cases hqs : s.readyQueue with
    | nil =>
      rw [dispatch_of_empty IDLE s hqs]
      have hps : ps = [] := by
        rw [hqs] at h1
        exact List.rotate_eq_nil_iff.mp h1.symm
      refine ⟨by simp [hqs, hps], h2, ?_⟩
      intro pid rest hpr
      simp [hqs] at hpr
    | cons pid rest =>
      have hv := h3 pid rest hqs
      have hidx := TimeSliceMap.index_of_some _ _ _ hv
      by_cases hlast : k % Q + 1 = Q
      · -- the slice of the head is used up by this call
        have hdiv : (k + 1) / Q = k / Q + 1 ∧ (k + 1) % Q = 0 := by
          apply (Nat.div_mod_unique hQ).mpr
          constructor
          · rw [Nat.mul_add]; omega
          · exact hQ
        have hle : s.timeSliceMap.index pid ≤ 1 := by rw [hidx]; omega
        rw [dispatch_of_exhausted IDLE s pid rest hqs hle]
        refine ⟨?_, h2, ?_⟩
        · show rest ++ [pid] = ps.rotate ((k + 1) / Q)
          rw [hdiv.1, ← List.rotate_rotate, ← h1, hqs, rotate_one_cons]
        · intro p r hpr
          simp only at hpr
          have hp : p = (rest ++ [pid]).head (by simp) := by
            simp [hpr]
          simp only
          rw [← hp, TimeSliceMap.assign_same, h2, hdiv.2]
          simp
      · -- the head keeps the processor
        have hdiv : (k + 1) / Q = k / Q ∧ (k + 1) % Q = k % Q + 1 := by
          apply (Nat.div_mod_unique hQ).mpr
          constructor
          · omega
          · omega
        have hgt : 1 < s.timeSliceMap.index pid := by rw [hidx]; omega
        rw [dispatch_of_remaining IDLE s pid rest hqs hgt]
        refine ⟨?_, h2, ?_⟩
        · show s.readyQueue = ps.rotate ((k + 1) / Q)
          rw [hdiv.1, h1]
        · intro p r hpr
          simp only at hpr
          have hp : p = pid := by
            rw [hqs] at hpr
            exact ((List.cons.injEq _ _ _ _).mp hpr).1.symm
          subst hp
          simp only
          rw [TimeSliceMap.assign_same, hidx, hdiv.2]
          congr 1
          push_cast
          omega

/-- The value returned by the `i`-th dispatch call (from `i = 0`) is the head of
the submitted list rotated `(i + 1) / Q` times. -/
theorem RRSchedulingPolicy.nthDispatch_submit_head (IDLE : Pid) (Q : Nat) (hQ : 0 < Q)
    (ps : List Pid) (i : Nat) (pid : Pid) (rest : List Pid)
    (hrot : ps.rotate ((i + 1) / Q) = pid :: rest) :
    nthDispatch IDLE (submit (new Q) ps) i = pid := by
  have h := dispatchTimes_submit IDLE Q hQ ps (i + 1)
  have h0 := dispatchTimes_submit IDLE Q hQ ps i
  generalize hs : dispatchTimes IDLE (submit (new Q) ps) i = s at h0
  have hstep : dispatchTimes IDLE (submit (new Q) ps) (i + 1) = (dispatch IDLE s).2 := by
    simp [dispatchTimes, hs]
  rw [hstep] at h
  have hnth : nthDispatch IDLE (submit (new Q) ps) i = (dispatch IDLE s).1 := by
    simp [nthDispatch, hs]
  rw [hnth]
  obtain ⟨h1, -, -⟩ := h
  obtain ⟨g1, -, g3⟩ := h0
  rw [hrot] at h1
  cases hqs : s.readyQueue with
  | nil =>
    rw [dispatch_of_empty IDLE s hqs, hqs] at h1
    exact absurd h1 (by simp)
  | cons p r =>
    have hidx := TimeSliceMap.index_of_some _ _ _ (g3 p r hqs)
    by_cases hle : s.timeSliceMap.index p ≤ 1
    · rw [dispatch_of_exhausted IDLE s p r hqs hle] at h1 ⊢
      simp only at h1 ⊢
      simp [h1]
    · have hgt : 1 < s.timeSliceMap.index p := by omega
      rw [dispatch_of_remaining IDLE s p r hqs hgt] at h1 ⊢
      simp only at h1 ⊢
      rw [hqs] at h1
      exact ((List.cons.injEq _ _ _ _).mp h1).1

/-- Closed form of the returned values: the `i`-th dispatch call (from `i = 0`)
returns the element of index `((i + 1) / Q) % n` of the `n` submitted pids. -/
theorem RRSchedulingPolicy.nthDispatch_submit (IDLE : Pid) (Q : Nat) (hQ : 0 < Q)
    (ps : List Pid) (hne : ps ≠ []) (i : Nat) :
    ps[((i + 1) / Q) % ps.length]? = some (nthDispatch IDLE (submit (new Q) ps) i) := by
  have hlen : 0 < ps.length := List.length_pos.mpr hne
  have hr : ((i + 1) / Q) % ps.length < ps.length := Nat.mod_lt _ hlen
  have hhead := List.head?_rotate hr
  rw [List.rotate_mod] at hhead
  cases hrot : ps.rotate ((i + 1) / Q) with
  | nil => exact absurd (List.rotate_eq_nil_iff.mp hrot) hne
  | cons pid rest =>
    rw [hrot] at hhead
    rw [nthDispatch_submit_head IDLE Q hQ ps i pid rest hrot, ← hhead]
    rfl

theorem RRSchedulingPolicy.succ_mod_ne (x n : Nat) (hn : 2 ≤ n) : x % n ≠ (x + 1) % n := by
  have hx : x % n < n := Nat.mod_lt _ (by omega)
  have h1 : 1 % n = 1 := Nat.mod_eq_of_lt (by omega)
  rw [Nat.add_mod, h1]
  by_cases hlast : x % n + 1 = n
  · rw [hlast, Nat.mod_self]
    omega
  · have hlt : x % n + 1 < n := by omega
    rw [Nat.mod_eq_of_lt hlt]
    omega

/-! ## Properties of the policy -/

/-- C1, the code at the claim's own inputs: with pids 1 and 2 submitted in that
order, quantum 2 makes the first eight dispatch calls return 1, 2, 2, 1, 1, 2, 2, 1
(not 1, 1, 2, 2, 1, 1, 2, 2) and quantum 3 makes the first nine return
1, 1, 2, 2, 2, 1, 1, 1, 2 (not 1, 1, 1, 2, 2, 2, 1, 1, 1): the first turn of the
first process is one call short. -/
theorem two_processes_first_turn_short (IDLE : Pid) :
    dispatchTrace IDLE (newProcess (newProcess (new 2) 1) 2) 8 = [1, 2, 2, 1, 1, 2, 2, 1] ∧
      dispatchTrace IDLE (newProcess (newProcess (new 3) 1) 2) 9
        = [1, 1, 2, 2, 2, 1, 1, 1, 2] := by
  constructor <;> rfl

/-- C2, the code at a failing input: with quantum 1 and pids 1, 2, 3 submitted in
that order, the first six dispatch calls return 2, 3, 1, 2, 3, 1 (not
1, 2, 3, 1, 2, 3): the very first call already skips the first arrival. -/
theorem quantum_one_skips_first_arrival (IDLE : Pid) :
    dispatchTrace IDLE (submit (new 1) [1, 2, 3]) 6 = [2, 3, 1, 2, 3, 1] := by
  rfl

/-- C3: when the ready queue is empty, dispatch returns IDLE and the state
(ready queue, time-slice table, quantum) after the call is the state before it;
the freshly constructed policy, for any quantum, is such a state. -/
theorem dispatch_empty_returns_idle (IDLE : Pid) (s : RRSchedulingPolicy)
    (h : s.readyQueue = []) :
    (dispatch IDLE s).1 = IDLE ∧ (dispatch IDLE s).2 = s ∧
      ∀ quantum : Int, (new quantum).readyQueue = [] ∧
        dispatch IDLE (new quantum) = (IDLE, new quantum) := by
  rw [dispatch_of_empty IDLE s h]
  exact ⟨rfl, rfl, fun _ => ⟨rfl, rfl⟩⟩

theorem dispatch_empty_returns_idle_witness :
    staleState.readyQueue = [] ∧
      ((dispatch 0 staleState).1 = 0 ∧ (dispatch 0 staleState).2 = staleState ∧
        ∀ quantum : Int, (new quantum).readyQueue = [] ∧
          dispatch 0 (new quantum) = (0, new quantum)) :=
  ⟨rfl, dispatch_empty_returns_idle 0 staleState rfl⟩

/-- C4: for every policy state, resetPolicy yields the state of a freshly
constructed policy with the same quantum (empty ready queue, empty time-slice
table, same quantum), and the dispatch call right after it returns IDLE. -/
theorem resetPolicy_eq_new (IDLE : Pid) (s : RRSchedulingPolicy) :
    resetPolicy s = new s.quantum ∧ (resetPolicy s).readyQueue = [] ∧
      (resetPolicy s).timeSliceMap = TimeSliceMap.empty ∧
      (resetPolicy s).quantum = s.quantum ∧
      (dispatch IDLE (resetPolicy s)).1 = IDLE :=
  ⟨rfl, rfl, rfl, rfl, rfl⟩

/-- C5: preempt returns false in every policy state and the state after the
call (ready queue, time-slice table, quantum) is the state before it. -/
theorem preempt_false_and_frame (s : RRSchedulingPolicy) :
    (preempt s).1 = false ∧ (preempt s).2 = s ∧
      (preempt s).2.readyQueue = s.readyQueue ∧
      (preempt s).2.timeSliceMap = s.timeSliceMap ∧
      (preempt s).2.quantum = s.quantum :=
  ⟨rfl, rfl, rfl, rfl, rfl⟩

/-- C6: for quantum Q ≥ 1 and a single submitted pid p, every dispatch call
returns p, the ready queue is [p] after any number of calls, the time-slice
entry of p after k calls is Q - k % Q (each call takes one cycle off and the
Q-th one of a turn, by the no-op rotation, sets it to Q again), and so after
every Q-th call (call number Q * (m + 1)) the entry of p is Q again. -/
theorem single_process_always_dispatched (IDLE : Pid) (Q : Nat) (hQ : 1 ≤ Q) (p : Pid) :
    (∀ i : Nat, nthDispatch IDLE (newProcess (new Q) p) i = p) ∧
      (∀ k : Nat, (dispatchTimes IDLE (newProcess (new Q) p) k).readyQueue = [p]) ∧
      (∀ k : Nat,
        (dispatchTimes IDLE (newProcess (new Q) p) k).timeSliceMap p
          = some ((Q : Int) - ((k % Q : Nat) : Int))) ∧
      (∀ m : Nat,
        (dispatchTimes IDLE (newProcess (new Q) p) (Q * (m + 1))).timeSliceMap p
          = some (Q : Int)) := by
  have hsub : newProcess (new Q) p = submit (new Q) [p] := rfl
  rw [hsub]
  have hqueue : ∀ k : Nat, (dispatchTimes IDLE (submit (new Q) [p]) k).readyQueue = [p] := by
    intro k
    rw [(dispatchTimes_submit IDLE Q hQ [p] k).1, List.rotate_singleton]
  have hentry : ∀ k : Nat,
      (dispatchTimes IDLE (submit (new Q) [p]) k).timeSliceMap p
        = some ((Q : Int) - ((k % Q : Nat) : Int)) := by
    intro k
    exact (dispatchTimes_submit IDLE Q hQ [p] k).2.2 p [] (hqueue k)
  refine ⟨?_, hqueue, hentry, ?_⟩
  · intro i
    exact nthDispatch_submit_head IDLE Q hQ [p] i p [] (List.rotate_singleton _ _)
  · intro m
    rw [hentry, Nat.mul_mod_right]
    simp

theorem single_process_always_dispatched_witness :
    1 ≤ 3 ∧
      ((∀ i : Nat, nthDispatch 0 (newProcess (new (3 : Nat)) 5) i = 5) ∧
        (∀ k : Nat, (dispatchTimes 0 (newProcess (new (3 : Nat)) 5) k).readyQueue = [5]) ∧
        (∀ k : Nat,
          (dispatchTimes 0 (newProcess (new (3 : Nat)) 5) k).timeSliceMap 5
            = some (((3 : Nat) : Int) - ((k % 3 : Nat) : Int))) ∧
        (∀ m : Nat,
          (dispatchTimes 0 (newProcess (new (3 : Nat)) 5) (3 * (m + 1))).timeSliceMap 5
            = some ((3 : Nat) : Int))) :=
  ⟨by decide, single_process_always_dispatched 0 3 (by decide) 5⟩

/-- C7: newProcess(pid) appends pid at the tail of the ready queue (the old
queue is a prefix of the new one), sets the table entry of pid to the quantum,
keeps every other table entry, and keeps the quantum. -/
theorem newProcess_appends_and_sets_slice (s : RRSchedulingPolicy) (pid : Pid) :
    (newProcess s pid).readyQueue = s.readyQueue ++ [pid] ∧
      s.readyQueue <+: (newProcess s pid).readyQueue ∧
      (∀ q : Pid, (newProcess s pid).timeSliceMap q
        = if q = pid then some s.quantum else s.timeSliceMap q) ∧
      (newProcess s pid).quantum = s.quantum := by
  refine ⟨rfl, List.prefix_append _ _, ?_, rfl⟩
  intro q
  by_cases hq : q = pid
  · subst hq
    simp [newProcess, TimeSliceMap.assign_same]
  · simp [newProcess, TimeSliceMap.assign_other _ _ _ _ hq, hq]

/-- C8: for quantum Q ≥ 1 and at least two pairwise distinct submitted pids, no
pid is returned by Q + 1 consecutive dispatch calls (whatever the first of them,
j), while some pid is returned by Q consecutive calls: Q is the maximum number
of consecutive dispatch calls that return the same process. -/
theorem quantum_bounds_consecutive_dispatches (IDLE : Pid) (Q : Nat) (hQ : 1 ≤ Q)
    (ps : List Pid) (hnd : ps.Nodup) (hlen : 2 ≤ ps.length) :
    (∀ (p : Pid) (j : Nat),
        ¬ ∀ i : Nat, i ≤ Q → nthDispatch IDLE (submit (new Q) ps) (j + i) = p) ∧
      (∃ (p : Pid) (j : Nat),
        ∀ i : Nat, i < Q → nthDispatch IDLE (submit (new Q) ps) (j + i) = p) := by
  have hne : ps ≠ [] := by
    intro h
    rw [h] at hlen
    simp at hlen
  constructor
  · intro p j hall
    have h0 := hall 0 (Nat.zero_le _)
    have h1 := hall Q (Nat.le_refl _)
    have c0 := nthDispatch_submit IDLE Q hQ ps hne (j + 0)
    have c1 := nthDispatch_submit IDLE Q hQ ps hne (j + Q)
    rw [h0] at c0
    rw [h1] at c1
    have e : j + Q + 1 = (j + 0 + 1) + Q := by omega
    rw [e, Nat.add_div_right _ hQ] at c1
    have hidx := List.getElem?_inj (Nat.mod_lt _ (by omega)) hnd (c0.trans c1.symm)
    exact succ_mod_ne _ _ hlen hidx
  · refine ⟨nthDispatch IDLE (submit (new Q) ps) (Q - 1), Q - 1, ?_⟩
    intro i hi
    have c0 := nthDispatch_submit IDLE Q hQ ps hne (Q - 1)
    have c1 := nthDispatch_submit IDLE Q hQ ps hne (Q - 1 + i)
    have e0 : Q - 1 + 1 = 0 + Q := by omega
    have e1 : Q - 1 + i + 1 = i + Q := by omega
    rw [e0, Nat.add_div_right _ hQ] at c0
    rw [e1, Nat.add_div_right _ hQ, Nat.div_eq_of_lt hi] at c1
    rw [Nat.zero_div] at c0
    exact Option.some.inj (c1.symm.trans c0)

theorem quantum_bounds_consecutive_dispatches_witness :
    1 ≤ 2 ∧ [(4 : Pid), 9, 6].Nodup ∧ 2 ≤ [(4 : Pid), 9, 6].length ∧
      ((∀ (p : Pid) (j : Nat),
          ¬ ∀ i : Nat, i ≤ 2 →
            nthDispatch 0 (submit (new (2 : Nat)) [4, 9, 6]) (j + i) = p) ∧
        (∃ (p : Pid) (j : Nat),
          ∀ i : Nat, i < 2 →
            nthDispatch 0 (submit (new (2 : Nat)) [4, 9, 6]) (j + i) = p)) :=
  ⟨by decide, by decide, by decide,
    quantum_bounds_consecutive_dispatches 0 2 (by decide) [4, 9, 6] (by decide) (by decide)⟩

/-- C9: resetPolicy is idempotent: two calls in a row leave the state that one
call leaves, and on the freshly constructed policy it changes nothing. -/
theorem resetPolicy_idempotent (s : RRSchedulingPolicy) :
    resetPolicy (resetPolicy s) = resetPolicy s ∧
      ∀ quantum : Int, resetPolicy (new quantum) = new quantum :=
  ⟨rfl, fun _ => rfl⟩

/-- C10: when the ready queue is pid :: rest and the remaining time slice of
pid (the value read by timeSliceMap[pid]) is at most 1 and above INT_MIN, so
that the decrement does not overflow and brings it to zero or less, dispatch
leaves the queue rest ++ [pid], which is the old queue rotated left by one, and
returns the head of that queue: the first pid of rest, or pid itself when rest
is empty. -/
theorem dispatch_exhausted_rotates (IDLE : Pid) (s : RRSchedulingPolicy) (pid : Pid)
    (rest : List Pid) (hq : s.readyQueue = pid :: rest)
    (hv : s.timeSliceMap.index pid ≤ 1) (hmin : INT_MIN < s.timeSliceMap.index pid) :
    INT_MIN ≤ s.timeSliceMap.index pid - 1 ∧ s.timeSliceMap.index pid - 1 ≤ 0 ∧
      (dispatch IDLE s).2.readyQueue = rest ++ [pid] ∧
      (dispatch IDLE s).2.readyQueue = s.readyQueue.rotate 1 ∧
      (dispatch IDLE s).2.readyQueue.head? = some (dispatch IDLE s).1 ∧
      (dispatch IDLE s).1 = rest.headD pid := by
  rw [dispatch_of_exhausted IDLE s pid rest hq hv, hq, rotate_one_cons]
  refine ⟨by omega, by omega, rfl, rfl, ?_, ?_⟩
  · simp only
    rw [List.head?_eq_head]
  · cases rest <;> rfl

theorem dispatch_exhausted_rotates_witness :
    (submit (new 1) [4, 9, 6]).readyQueue = 4 :: [9, 6] ∧
      (submit (new 1) [4, 9, 6]).timeSliceMap.index 4 ≤ 1 ∧
      INT_MIN < (submit (new 1) [4, 9, 6]).timeSliceMap.index 4 ∧
      (INT_MIN ≤ (submit (new 1) [4, 9, 6]).timeSliceMap.index 4 - 1 ∧
        (submit (new 1) [4, 9, 6]).timeSliceMap.index 4 - 1 ≤ 0 ∧
        (dispatch 0 (submit (new 1) [4, 9, 6])).2.readyQueue = [9, 6] ++ [4] ∧
        (dispatch 0 (submit (new 1) [4, 9, 6])).2.readyQueue
          = (submit (new 1) [4, 9, 6]).readyQueue.rotate 1 ∧
        (dispatch 0 (submit (new 1) [4, 9, 6])).2.readyQueue.head?
          = some (dispatch 0 (submit (new 1) [4, 9, 6])).1 ∧
        (dispatch 0 (submit (new 1) [4, 9, 6])).1 = [9, 6].headD 4) :=
  ⟨rfl, by decide, by decide,
    dispatch_exhausted_rotates 0 (submit (new 1) [4, 9, 6]) 4 [9, 6] rfl (by decide)
      (by decide)⟩

/-- C11 as stated fails: with quantum 1 and pids 1, 2 queued (head entry 1), after
the dispatch call the entry of the exhausted pid 1 is 0, not the quantum. -/
theorem exhausted_entry_not_reset_counterexample :
    (submit (new 1) [1, 2]).readyQueue = 1 :: [2] ∧
      (submit (new 1) [1, 2]).timeSliceMap.index 1 ≤ 1 ∧
      (dispatch 0 (submit (new 1) [1, 2])).2.timeSliceMap 1 = some 0 ∧
      (dispatch 0 (submit (new 1) [1, 2])).2.timeSliceMap 1
        ≠ some (submit (new 1) [1, 2]).quantum := by
  decide

/-- C11, amended: when the ready queue is pid :: rest and the remaining time
slice of pid is at most 1 and above INT_MIN (so that the decrement does not
overflow), after the dispatch call the table entry of the new head of the queue
(the returned pid) equals the quantum; the entry of the exhausted pid equals
the quantum when it is itself the new head (in particular when it is alone in
the queue) and is its decremented value, at most 0, otherwise. -/
theorem dispatch_exhausted_resets_new_head (IDLE : Pid) (s : RRSchedulingPolicy) (pid : Pid)
    (rest : List Pid) (hq : s.readyQueue = pid :: rest)
    (hv : s.timeSliceMap.index pid ≤ 1) (hmin : INT_MIN < s.timeSliceMap.index pid) :
    (dispatch IDLE s).2.readyQueue.head? = some (dispatch IDLE s).1 ∧
      (dispatch IDLE s).2.timeSliceMap (dispatch IDLE s).1 = some s.quantum ∧
      (rest = [] → (dispatch IDLE s).2.timeSliceMap pid = some s.quantum) ∧
      ((dispatch IDLE s).1 = pid → (dispatch IDLE s).2.timeSliceMap pid = some s.quantum) ∧
      ((dispatch IDLE s).1 ≠ pid →
        (dispatch IDLE s).2.timeSliceMap pid = some (s.timeSliceMap.index pid - 1) ∧
          INT_MIN ≤ s.timeSliceMap.index pid - 1 ∧ s.timeSliceMap.index pid - 1 ≤ 0) := by
  rw [dispatch_of_exhausted IDLE s pid rest hq hv]
  refine ⟨?_, ?_, ?_, ?_, ?_⟩
  · simp only
    rw [List.head?_eq_head]
  · simp only
    rw [TimeSliceMap.assign_same]
  · intro hr
    subst hr
    simp only [List.nil_append, List.head_cons]
    rw [TimeSliceMap.assign_same]
  · intro heq
    simp only at heq ⊢
    rw [heq, TimeSliceMap.assign_same]
  · intro hne
    simp only at hne ⊢
    rw [TimeSliceMap.assign_other _ _ _ _ (Ne.symm hne), TimeSliceMap.assign_same]
    exact ⟨rfl, by omega, by omega⟩

theorem dispatch_exhausted_resets_new_head_witness :
    (submit (new 1) [4, 9, 6]).readyQueue = 4 :: [9, 6] ∧
      (submit (new 1) [4, 9, 6]).timeSliceMap.index 4 ≤ 1 ∧
      INT_MIN < (submit (new 1) [4, 9, 6]).timeSliceMap.index 4 ∧
      ((dispatch 0 (submit (new 1) [4, 9, 6])).2.readyQueue.head?
          = some (dispatch 0 (submit (new 1) [4, 9, 6])).1 ∧
        (dispatch 0 (submit (new 1) [4, 9, 6])).2.timeSliceMap
            (dispatch 0 (submit (new 1) [4, 9, 6])).1
          = some (submit (new 1) [4, 9, 6]).quantum ∧
        (([9, 6] : List Pid) = [] →
          (dispatch 0 (submit (new 1) [4, 9, 6])).2.timeSliceMap 4
            = some (submit (new 1) [4, 9, 6]).quantum) ∧
        ((dispatch 0 (submit (new 1) [4, 9, 6])).1 = 4 →
          (dispatch 0 (submit (new 1) [4, 9, 6])).2.timeSliceMap 4
            = some (submit (new 1) [4, 9, 6]).quantum) ∧
        ((dispatch 0 (submit (new 1) [4, 9, 6])).1 ≠ 4 →
          (dispatch 0 (submit (new 1) [4, 9, 6])).2.timeSliceMap 4
              = some ((submit (new 1) [4, 9, 6]).timeSliceMap.index 4 - 1) ∧
            INT_MIN ≤ (submit (new 1) [4, 9, 6]).timeSliceMap.index 4 - 1 ∧
            (submit (new 1) [4, 9, 6]).timeSliceMap.index 4 - 1 ≤ 0)) :=
  ⟨rfl, by decide, by decide,
    dispatch_exhausted_resets_new_head 0 (submit (new 1) [4, 9, 6]) 4 [9, 6] rfl (by decide)
      (by decide)⟩

/-- C12: when the ready queue is pid :: rest and the remaining time slice of
pid is greater than 1, dispatch returns pid, leaves the ready queue unchanged,
lowers the table entry of pid by exactly one, and leaves every other table
entry and the quantum unchanged. -/
theorem dispatch_remaining_decrements (IDLE : Pid) (s : RRSchedulingPolicy) (pid : Pid)
    (rest : List Pid) (hq : s.readyQueue = pid :: rest)
    (hv : 1 < s.timeSliceMap.index pid) :
    (dispatch IDLE s).1 = pid ∧
      (dispatch IDLE s).2.readyQueue = s.readyQueue ∧
      (∃ v : Int, s.timeSliceMap pid = some v ∧
        (dispatch IDLE s).2.timeSliceMap pid = some (v - 1)) ∧
      (∀ q : Pid, q ≠ pid → (dispatch IDLE s).2.timeSliceMap q = s.timeSliceMap q) ∧
      (dispatch IDLE s).2.quantum = s.quantum := by
  rw [dispatch_of_remaining IDLE s pid rest hq hv]
  refine ⟨rfl, rfl, ?_, ?_, rfl⟩
  · cases hm : s.timeSliceMap pid with
    | none =>
      simp [TimeSliceMap.index, hm] at hv
    | some v =>
      refine ⟨v, rfl, ?_⟩
      simp only
      rw [TimeSliceMap.assign_same, TimeSliceMap.index_of_some _ _ _ hm]
  · intro q hne
    simp only
    rw [TimeSliceMap.assign_other _ _ _ _ hne]

theorem dispatch_remaining_decrements_witness :
    (submit (new 3) [4, 9]).readyQueue = 4 :: [9] ∧
      1 < (submit (new 3) [4, 9]).timeSliceMap.index 4 ∧
      ((dispatch 0 (submit (new 3) [4, 9])).1 = 4 ∧
        (dispatch 0 (submit (new 3) [4, 9])).2.readyQueue = (submit (new 3) [4, 9]).readyQueue ∧
        (∃ v : Int, (submit (new 3) [4, 9]).timeSliceMap 4 = some v ∧
          (dispatch 0 (submit (new 3) [4, 9])).2.timeSliceMap 4 = some (v - 1)) ∧
        (∀ q : Pid, q ≠ 4 →
          (dispatch 0 (submit (new 3) [4, 9])).2.timeSliceMap q
            = (submit (new 3) [4, 9]).timeSliceMap q) ∧
        (dispatch 0 (submit (new 3) [4, 9])).2.quantum = (submit (new 3) [4, 9]).quantum) :=
  ⟨rfl, by decide,
    dispatch_remaining_decrements 0 (submit (new 3) [4, 9]) 4 [9] rfl (by decide)⟩

/-! ## Sequences of interface calls -/

theorem TimeSliceMap.assign_ne_none (m : TimeSliceMap) (pid : Pid) (v : Int) (q : Pid)
    (h : m q ≠ none) : m.assign pid v q ≠ none := by
  by_cases hq : q = pid
  · subst hq
    rw [TimeSliceMap.assign_same]
    simp
  · rw [TimeSliceMap.assign_other _ _ _ _ hq]
    exact h

/-- A property that holds in a state and is kept by `newProcess`, `dispatch` and
`resetPolicy` holds after every sequence of interface calls. -/
theorem RRSchedulingPolicy.runCalls_invariant (IDLE : Pid) (P : RRSchedulingPolicy → Prop)
    (hnew : ∀ s pid, P s → P (newProcess s pid))
    (hdis : ∀ s, P s → P (dispatch IDLE s).2)
    (hres : ∀ s, P s → P (resetPolicy s))
    (cs : List Call) : ∀ s, P s → P (runCalls IDLE s cs).2 := by
  induction cs with
  | nil =>
    intro s hs
    exact hs
  | cons c cs ih =>
    intro s hs
    have hstep : P (callWith (dispatch IDLE) s c).2 := by
      cases c with
      | newProcess pid => exact hnew s pid hs
      | dispatch => exact hdis s hs
      | preempt => exact hs
      | resetPolicy => exact hres s hs
    exact ih _ hstep

/-- The ready queue after `dispatch()` is a permutation of the queue before. -/
theorem RRSchedulingPolicy.dispatch_queue_perm (IDLE : Pid) (s : RRSchedulingPolicy) :
    (dispatch IDLE s).2.readyQueue.Perm s.readyQueue := by
  cases hq : s.readyQueue with
  | nil =>
    rw [dispatch_of_empty IDLE s hq, hq]
  | cons pid rest =>
    by_cases hv : s.timeSliceMap.index pid ≤ 1
    · rw [dispatch_of_exhausted IDLE s pid rest hq hv]
      simp only
      exact List.perm_append_singleton pid rest
    · rw [dispatch_of_remaining IDLE s pid rest hq (by omega)]
      simp only
      rw [hq]

/-- An entry of the time-slice table is never removed by `dispatch()`. -/
theorem RRSchedulingPolicy.dispatch_keeps_entries (IDLE : Pid) (s : RRSchedulingPolicy)
    (p : Pid) (h : s.timeSliceMap p ≠ none) : (dispatch IDLE s).2.timeSliceMap p ≠ none := by
  cases hq : s.readyQueue with
  | nil =>
    rw [dispatch_of_empty IDLE s hq]
    exact h
  | cons pid rest =>
    by_cases hv : s.timeSliceMap.index pid ≤ 1
    · rw [dispatch_of_exhausted IDLE s pid rest hq hv]
      exact TimeSliceMap.assign_ne_none _ _ _ _ (TimeSliceMap.assign_ne_none _ _ _ _ h)
    · rw [dispatch_of_remaining IDLE s pid rest hq (by omega)]
      exact TimeSliceMap.assign_ne_none _ _ _ _ h

/-- In every state reached from a constructed policy each queued pid has a
time-slice entry. -/
theorem RRSchedulingPolicy.runCalls_tracked (IDLE : Pid) (quantum : Int) (cs : List Call) :
    ∀ p ∈ (runCalls IDLE (new quantum) cs).2.readyQueue,
      (runCalls IDLE (new quantum) cs).2.timeSliceMap p ≠ none := by
  apply runCalls_invariant IDLE (fun s => ∀ p ∈ s.readyQueue, s.timeSliceMap p ≠ none)
  · intro s pid hs p hp
    simp only [newProcess] at hp ⊢
    by_cases hpp : p = pid
    · subst hpp
      rw [TimeSliceMap.assign_same]
      simp
    · rw [TimeSliceMap.assign_other _ _ _ _ hpp]
      rcases List.mem_append.mp hp with h | h
      · exact hs p h
      · exact absurd (List.mem_singleton.mp h) hpp
  · intro s hs p hp
    exact dispatch_keeps_entries IDLE s p (hs p ((dispatch_queue_perm IDLE s).mem_iff.mp hp))
  · intro s _ p hp
    simp [resetPolicy] at hp
  · intro p hp
    simp [new, resetPolicy] at hp

/-- In every state reached from a policy constructed with quantum `Q ≥ 1`, the
quantum is `Q`, every table entry lies in `[0, Q]` and the entry of the head of
the queue lies in `[1, Q]`. -/
theorem RRSchedulingPolicy.runCalls_slice_bounds (IDLE : Pid) (Q : Int) (hQ : 1 ≤ Q)
    (cs : List Call) :
    (runCalls IDLE (new Q) cs).2.quantum = Q ∧
      (∀ p v, (runCalls IDLE (new Q) cs).2.timeSliceMap p = some v → 0 ≤ v ∧ v ≤ Q) ∧
      (∀ h t, (runCalls IDLE (new Q) cs).2.readyQueue = h :: t →
        ∃ v, (runCalls IDLE (new Q) cs).2.timeSliceMap h = some v ∧ 1 ≤ v ∧ v ≤ Q) := by
  apply runCalls_invariant IDLE (fun s => s.quantum = Q ∧
      (∀ p v, s.timeSliceMap p = some v → 0 ≤ v ∧ v ≤ Q) ∧
      (∀ h t, s.readyQueue = h :: t → ∃ v, s.timeSliceMap h = some v ∧ 1 ≤ v ∧ v ≤ Q))
  · -- newProcess
    rintro s pid ⟨hquant, hall, hhead⟩
    refine ⟨hquant, ?_, ?_⟩
    · intro p v hpv
      simp only [newProcess] at hpv
      by_cases hp : p = pid
      · subst hp
        rw [TimeSliceMap.assign_same] at hpv
        have : s.quantum = v := Option.some.inj hpv
        omega
      · rw [TimeSliceMap.assign_other _ _ _ _ hp] at hpv
        exact hall p v hpv
    · intro h t hht
      simp only [newProcess] at hht ⊢
      by_cases hp : h = pid
      · subst hp
        exact ⟨s.quantum, TimeSliceMap.assign_same _ _ _, by omega, by omega⟩
      · rw [TimeSliceMap.assign_other _ _ _ _ hp]
        cases hq : s.readyQueue with
        | nil =>
          rw [hq] at hht
          simp at hht
          exact absurd hht.1.symm hp
        | cons a l =>
          rw [hq] at hht
          have ha : a = h := by
            simp at hht
            exact hht.1
          subst ha
          exact hhead a l hq
  · -- dispatch
    rintro s ⟨hquant, hall, hhead⟩
    cases hq : s.readyQueue with
    | nil =>
      rw [dispatch_of_empty IDLE s hq]
      exact ⟨hquant, hall, hhead⟩
    | cons pid rest =>
      obtain ⟨v, hv, hv1, hvQ⟩ := hhead pid rest hq
      have hidx := TimeSliceMap.index_of_some _ _ _ hv
      by_cases hle : s.timeSliceMap.index pid ≤ 1
      · rw [dispatch_of_exhausted IDLE s pid rest hq hle]
        refine ⟨hquant, ?_, ?_⟩
        · intro p w hpw
          simp only at hpw
          by_cases hp : p = (rest ++ [pid]).head (by simp)
          · rw [hp, TimeSliceMap.assign_same] at hpw
            have : s.quantum = w := Option.some.inj hpw
            omega
          · rw [TimeSliceMap.assign_other _ _ _ _ hp] at hpw
            by_cases hp2 : p = pid
            · subst hp2
              rw [TimeSliceMap.assign_same] at hpw
              have : s.timeSliceMap.index p - 1 = w := Option.some.inj hpw
              omega
            · rw [TimeSliceMap.assign_other _ _ _ _ hp2] at hpw
              exact hall p w hpw
        · intro h t hht
          simp only at hht ⊢
          have hh : h = (rest ++ [pid]).head (by simp) := by
            simp [hht]
          rw [← hh, TimeSliceMap.assign_same]
          exact ⟨s.quantum, rfl, by omega, by omega⟩
      · have hgt : 1 < s.timeSliceMap.index pid := by omega
        rw [dispatch_of_remaining IDLE s pid rest hq hgt]
        refine ⟨hquant, ?_, ?_⟩
        · intro p w hpw
          simp only at hpw
          by_cases hp : p = pid
          · subst hp
            rw [TimeSliceMap.assign_same] at hpw
            have : s.timeSliceMap.index p - 1 = w := Option.some.inj hpw
            omega
          · rw [TimeSliceMap.assign_other _ _ _ _ hp] at hpw
            exact hall p w hpw
        · intro h t hht
          simp only at hht ⊢
          rw [hq] at hht
          have hh : pid = h := ((List.cons.injEq _ _ _ _).mp hht).1
          subst hh
          rw [TimeSliceMap.assign_same]
          exact ⟨s.timeSliceMap.index pid - 1, rfl, by omega, by omega⟩
  · -- resetPolicy
    rintro s ⟨hquant, -, -⟩
    refine ⟨hquant, ?_, ?_⟩
    · intro p v hpv
      simp [resetPolicy, TimeSliceMap.empty] at hpv
    · intro h t hht
      simp [resetPolicy] at hht
  · -- the constructed policy
    refine ⟨rfl, ?_, ?_⟩
    · intro p v hpv
      simp [new, resetPolicy, TimeSliceMap.empty] at hpv
    · intro h t hht
      simp [new, resetPolicy] at hht

/-! ## The source against the algorithm of the spec -/

theorem TimeSliceMap.index_assign_other (m : TimeSliceMap) (pid : Pid) (v : Int) (q : Pid)
    (h : q ≠ pid) : (m.assign pid v).index q = m.index q := by
  simp [TimeSliceMap.index, TimeSliceMap.assign_other _ _ _ _ h]

theorem RRSchedulingPolicy.specDispatch_of_empty (IDLE : Pid) (s : RRSchedulingPolicy)
    (h : s.readyQueue = []) : specDispatch IDLE s = (IDLE, s) := by
  cases s with
  | mk q m Q =>
    simp only at h
    subst h
    rfl

theorem RRSchedulingPolicy.specDispatch_of_exhausted (IDLE : Pid) (s : RRSchedulingPolicy)
    (pid : Pid) (rest : List Pid) (hq : s.readyQueue = pid :: rest)
    (hv : s.timeSliceMap.index pid ≤ 1) :
    specDispatch IDLE s =
      ((rest ++ [pid]).head (by simp),
        { readyQueue := rest ++ [pid]
          timeSliceMap :=
            (s.timeSliceMap.assign pid (s.timeSliceMap.index pid - 1)).assign pid s.quantum
          quantum := s.quantum }) := by
  cases s with
  | mk q m Q =>
    simp only at hq hv
    subst hq
    have h0 : m.index pid - 1 ≤ 0 := by omega
    simp [specDispatch, TimeSliceMap.index_assign_same, h0]

theorem RRSchedulingPolicy.specDispatch_of_remaining (IDLE : Pid) (s : RRSchedulingPolicy)
    (pid : Pid) (rest : List Pid) (hq : s.readyQueue = pid :: rest)
    (hv : 1 < s.timeSliceMap.index pid) :
    specDispatch IDLE s =
      (pid,
        { readyQueue := s.readyQueue
          timeSliceMap := s.timeSliceMap.assign pid (s.timeSliceMap.index pid - 1)
          quantum := s.quantum }) := by
  cases s with
  | mk q m Q =>
    simp only at hq hv
    subst hq
    have h0 : ¬ m.index pid - 1 ≤ 0 := by omega
    simp [specDispatch, TimeSliceMap.index_assign_same, h0]

theorem RRSchedulingPolicy.sameSchedule_newProcess (a b : RRSchedulingPolicy) (pid : Pid)
    (h : SameSchedule a b) : SameSchedule (newProcess a pid) (newProcess b pid) := by
  obtain ⟨hqueue, hquant, hrel⟩ := h
  refine ⟨by simp [newProcess, hqueue], hquant, ?_⟩
  intro x t hxt
  simp only [newProcess] at hxt ⊢
  cases hq : a.readyQueue with
  | nil =>
    rw [hq] at hxt
    simp at hxt
    obtain ⟨hx, ht⟩ := hxt
    subst hx
    subst ht
    rw [TimeSliceMap.index_assign_same, TimeSliceMap.index_assign_same]
    exact ⟨hquant, by simp⟩
  | cons y l =>
    rw [hq] at hxt
    simp at hxt
    obtain ⟨hx, ht⟩ := hxt
    subst hx
    obtain ⟨hhead, htail⟩ := hrel y l hq
    constructor
    · by_cases hy : y = pid
      · subst hy
        rw [TimeSliceMap.index_assign_same, TimeSliceMap.index_assign_same]
        exact hquant
      · rw [TimeSliceMap.index_assign_other _ _ _ _ hy, TimeSliceMap.index_assign_other _ _ _ _ hy]
        exact hhead
    · intro p hp hpy
      by_cases hpp : p = pid
      · subst hpp
        rw [TimeSliceMap.index_assign_same]
      · rw [TimeSliceMap.index_assign_other _ _ _ _ hpp]
        rw [← ht] at hp
        rcases List.mem_append.mp hp with h1 | h1
        · exact htail p h1 hpy
        · exact absurd (List.mem_singleton.mp h1) hpp

theorem RRSchedulingPolicy.sameSchedule_dispatch (IDLE : Pid) (a b : RRSchedulingPolicy)
    (h : SameSchedule a b) :
    (dispatch IDLE a).1 = (specDispatch IDLE b).1 ∧
      SameSchedule (dispatch IDLE a).2 (specDispatch IDLE b).2 := by
  obtain ⟨hqueue, hquant, hrel⟩ := h
  cases hq : a.readyQueue with
  | nil =>
    rw [dispatch_of_empty IDLE a hq, specDispatch_of_empty IDLE b (hqueue ▸ hq)]
    exact ⟨rfl, hqueue, hquant, hrel⟩
  | cons pid rest =>
    have hqb : b.readyQueue = pid :: rest := hqueue ▸ hq
    obtain ⟨hhead, htail⟩ := hrel pid rest hq
    by_cases hle : a.timeSliceMap.index pid ≤ 1
    · rw [dispatch_of_exhausted IDLE a pid rest hq hle,
        specDispatch_of_exhausted IDLE b pid rest hqb (hhead ▸ hle)]
      refine ⟨rfl, rfl, hquant, ?_⟩
      intro x t hxt
      simp only at hxt ⊢
      have hx : x = (rest ++ [pid]).head (by simp) := by
        simp [hxt]
      have hmem : ∀ p ∈ x :: t, p ≠ pid → p ∈ rest := by
        intro p hp hpp
        rw [← hxt] at hp
        rcases List.mem_append.mp hp with h1 | h1
        · exact h1
        · exact absurd (List.mem_singleton.mp h1) hpp
      constructor
      · rw [← hx, TimeSliceMap.index_assign_same]
        by_cases hxp : x = pid
        · subst hxp
          rw [TimeSliceMap.index_assign_same]
          exact hquant
        · rw [TimeSliceMap.index_assign_other _ _ _ _ hxp,
            TimeSliceMap.index_assign_other _ _ _ _ hxp]
          exact (htail x (hmem x (List.mem_cons_self _ _) hxp) hxp).symm ▸ hquant
      · intro p hp _
        by_cases hpp : p = pid
        · subst hpp
          rw [TimeSliceMap.index_assign_same]
        · rw [TimeSliceMap.index_assign_other _ _ _ _ hpp,
            TimeSliceMap.index_assign_other _ _ _ _ hpp]
          exact htail p (hmem p (List.mem_cons_of_mem _ hp) hpp) hpp
    · have hgt : 1 < a.timeSliceMap.index pid := by omega
      rw [dispatch_of_remaining IDLE a pid rest hq hgt,
        specDispatch_of_remaining IDLE b pid rest hqb (hhead ▸ hgt)]
      refine ⟨rfl, hqueue, hquant, ?_⟩
      intro x t hxt
      simp only at hxt ⊢
      rw [hq] at hxt
      obtain ⟨hx, ht⟩ := (List.cons.injEq _ _ _ _).mp hxt
      subst hx
      subst ht
      constructor
      · rw [TimeSliceMap.index_assign_same, TimeSliceMap.index_assign_same, hhead]
      · intro p hp hpp
        rw [TimeSliceMap.index_assign_other _ _ _ _ hpp]
        exact htail p hp hpp

theorem RRSchedulingPolicy.sameSchedule_run (IDLE : Pid) (cs : List Call) :
    ∀ a b : RRSchedulingPolicy, SameSchedule a b →
      (runCalls IDLE a cs).1 = (specRunCalls IDLE b cs).1 ∧
        SameSchedule (runCalls IDLE a cs).2 (specRunCalls IDLE b cs).2 := by
  induction cs with
  | nil =>
    intro a b h
    exact ⟨rfl, h⟩
  | cons c cs ih =>
    intro a b h
    have hstep : (callWith (dispatch IDLE) a c).1 = (callWith (specDispatch IDLE) b c).1 ∧
        SameSchedule (callWith (dispatch IDLE) a c).2 (callWith (specDispatch IDLE) b c).2 := by
      cases c with
      | newProcess pid => exact ⟨rfl, sameSchedule_newProcess a b pid h⟩
      | dispatch =>
        obtain ⟨h1, h2⟩ := sameSchedule_dispatch IDLE a b h
        exact ⟨congrArg Ret.pid h1, h2⟩
      | preempt => exact ⟨rfl, h⟩
      | resetPolicy =>
        refine ⟨rfl, rfl, h.2.1, ?_⟩
        intro x t hxt
        simp [callWith, resetPolicy] at hxt
    obtain ⟨hret, hsim⟩ := hstep
    obtain ⟨h1, h2⟩ := ih _ _ hsim
    refine ⟨?_, h2⟩
    show (callWith (dispatch IDLE) a c).1 :: (runCalls IDLE (callWith (dispatch IDLE) a c).2 cs).1
      = (callWith (specDispatch IDLE) b c).1
        :: (specRunCalls IDLE (callWith (specDispatch IDLE) b c).2 cs).1
    rw [hret, h1]

theorem RRSchedulingPolicy.freshSubmissions_nodup (IDLE : Pid) (cs : List Call) :
    ∀ s : RRSchedulingPolicy, s.readyQueue.Nodup → freshSubmissions IDLE s cs = true →
      (runCalls IDLE s cs).2.readyQueue.Nodup := by
  induction cs with
  | nil =>
    intro s hs _
    exact hs
  | cons c cs ih =>
    intro s hs hf
    simp only [freshSubmissions, Bool.and_eq_true] at hf
    obtain ⟨hc, hrest⟩ := hf
    apply ih _ _ hrest
    cases c with
    | newProcess pid =>
      simp only [decide_eq_true_eq] at hc
      simp only [callWith, newProcess]
      exact List.Nodup.append hs (List.nodup_singleton pid)
        (List.disjoint_singleton.mpr hc)
    | dispatch => exact (dispatch_queue_perm IDLE s).nodup_iff.mpr hs
    | preempt => exact hs
    | resetPolicy => exact List.nodup_nil

/-! ## Properties of reachable states and of the dispatch sequence -/

/-- C13: in every state reached from a freshly constructed policy by any
sequence of newProcess, dispatch, preempt and resetPolicy calls, every pid of the
ready queue has an entry in the time-slice table; in particular the head pid
read by the next dispatch call has one. -/
theorem queued_pids_have_slice_entries (IDLE : Pid) (quantum : Int) (cs : List Call) :
    (∀ p ∈ (runCalls IDLE (new quantum) cs).2.readyQueue,
        (runCalls IDLE (new quantum) cs).2.timeSliceMap p ≠ none) ∧
      (∀ pid rest, (runCalls IDLE (new quantum) cs).2.readyQueue = pid :: rest →
        ∃ v : Int, (runCalls IDLE (new quantum) cs).2.timeSliceMap pid = some v) := by
  have h := runCalls_tracked IDLE quantum cs
  refine ⟨h, ?_⟩
  intro pid rest hq
  have hp : pid ∈ (runCalls IDLE (new quantum) cs).2.readyQueue := by
    rw [hq]
    exact List.mem_cons_self _ _
  exact Option.ne_none_iff_exists'.mp (h pid hp)

/-- C14: for quantum Q ≥ 1, in every state reached from a freshly constructed
policy by any sequence of interface calls, every time-slice table entry is at
least 0 and at most Q, and when the ready queue is non-empty the entry of its
head pid exists and lies between 1 and Q. -/
theorem slice_entries_within_quantum (IDLE : Pid) (Q : Int) (hQ : 1 ≤ Q) (cs : List Call) :
    (∀ p v, (runCalls IDLE (new Q) cs).2.timeSliceMap p = some v → 0 ≤ v ∧ v ≤ Q) ∧
      (∀ h t, (runCalls IDLE (new Q) cs).2.readyQueue = h :: t →
        ∃ v, (runCalls IDLE (new Q) cs).2.timeSliceMap h = some v ∧ 1 ≤ v ∧ v ≤ Q) :=
  (runCalls_slice_bounds IDLE Q hQ cs).2

theorem slice_entries_within_quantum_witness :
    (1 : Int) ≤ 2 ∧
      ((∀ p v, (runCalls 0 (new 2) sampleCalls).2.timeSliceMap p = some v → 0 ≤ v ∧ v ≤ 2) ∧
        (∀ h t, (runCalls 0 (new 2) sampleCalls).2.readyQueue = h :: t →
          ∃ v, (runCalls 0 (new 2) sampleCalls).2.timeSliceMap h = some v ∧ 1 ≤ v ∧ v ≤ 2)) :=
  ⟨by decide, slice_entries_within_quantum 0 2 (by decide) sampleCalls⟩

/-- C15: when every newProcess call of a call sequence submits a pid that is not
in the ready queue at that time, the ready queue reached from a freshly
constructed policy has no duplicates; dispatch, preempt and resetPolicy each keep
a duplicate-free queue duplicate-free, and dispatch keeps the set of queued pids
and the length of the queue. -/
theorem fresh_submissions_keep_queue_nodup (IDLE : Pid) (quantum : Int) (cs : List Call)
    (hfresh : freshSubmissions IDLE (new quantum) cs = true) :
    (runCalls IDLE (new quantum) cs).2.readyQueue.Nodup ∧
      (∀ s : RRSchedulingPolicy, s.readyQueue.Nodup →
        (dispatch IDLE s).2.readyQueue.Nodup ∧ (preempt s).2.readyQueue.Nodup ∧
          (resetPolicy s).readyQueue.Nodup) ∧
      (∀ s : RRSchedulingPolicy,
        (∀ p, p ∈ (dispatch IDLE s).2.readyQueue ↔ p ∈ s.readyQueue) ∧
          (dispatch IDLE s).2.readyQueue.length = s.readyQueue.length) := by
  refine ⟨freshSubmissions_nodup IDLE cs (new quantum) List.nodup_nil hfresh, ?_, ?_⟩
  · intro s hs
    exact ⟨(dispatch_queue_perm IDLE s).nodup_iff.mpr hs, hs, List.nodup_nil⟩
  · intro s
    exact ⟨fun p => (dispatch_queue_perm IDLE s).mem_iff, (dispatch_queue_perm IDLE s).length_eq⟩

theorem fresh_submissions_keep_queue_nodup_witness :
    freshSubmissions 0 (new 2) sampleCalls = true ∧
      ((runCalls 0 (new 2) sampleCalls).2.readyQueue.Nodup ∧
        (∀ s : RRSchedulingPolicy, s.readyQueue.Nodup →
          (dispatch 0 s).2.readyQueue.Nodup ∧ (preempt s).2.readyQueue.Nodup ∧
            (resetPolicy s).readyQueue.Nodup) ∧
        (∀ s : RRSchedulingPolicy,
          (∀ p, p ∈ (dispatch 0 s).2.readyQueue ↔ p ∈ s.readyQueue) ∧
            (dispatch 0 s).2.readyQueue.length = s.readyQueue.length)) :=
  ⟨by decide, fresh_submissions_keep_queue_nodup 0 2 sampleCalls (by decide)⟩

/-- C16 as stated fails: in the state with ready queue [1, 2], an empty
time-slice table and quantum 3, the head pid 1 has no entry, yet dispatch
returns pid 2, changes the ready queue to [2, 1] and creates the entries
1 ↦ -1 and 2 ↦ 3. -/
theorem missing_entry_no_fault_counterexample :
    orphanState.readyQueue = [1, 2] ∧ orphanState.timeSliceMap 1 = none ∧
      (dispatch 0 orphanState).1 = 2 ∧
      (dispatch 0 orphanState).2.readyQueue = [2, 1] ∧
      (dispatch 0 orphanState).2.readyQueue ≠ orphanState.readyQueue ∧
      (dispatch 0 orphanState).2.timeSliceMap 1 = some (-1) ∧
      (dispatch 0 orphanState).2.timeSliceMap 2 = some 3 ∧
      (dispatch 0 orphanState).2.timeSliceMap 1 ≠ orphanState.timeSliceMap 1 := by
  decide

/-- C16, amended: when the ready queue is pid :: rest and pid has no entry in
the time-slice table, dispatch raises no fault: the lookup creates the entry
with value 0, the decrement makes it -1, pid is rotated to the tail (a
one-element queue is left as it was), the entry of the new head is set to the
quantum and the new head is returned; the table changes, because pid has an
entry afterwards (the quantum when pid is itself the new head, -1 otherwise),
and the quantum is unchanged. -/
theorem dispatch_missing_entry_rotates (IDLE : Pid) (s : RRSchedulingPolicy) (pid : Pid)
    (rest : List Pid) (hq : s.readyQueue = pid :: rest) (hnone : s.timeSliceMap pid = none) :
    (dispatch IDLE s).1 = rest.headD pid ∧
      (dispatch IDLE s).2.readyQueue = rest ++ [pid] ∧
      (rest = [] → (dispatch IDLE s).2.readyQueue = s.readyQueue) ∧
      (dispatch IDLE s).2.timeSliceMap
        = (s.timeSliceMap.assign pid (-1)).assign (rest.headD pid) s.quantum ∧
      (dispatch IDLE s).2.timeSliceMap pid
        = some (if rest.headD pid = pid then s.quantum else -1) ∧
      (dispatch IDLE s).2.timeSliceMap ≠ s.timeSliceMap ∧
      (dispatch IDLE s).2.quantum = s.quantum := by
  have hidx : s.timeSliceMap.index pid = 0 := by
    simp [TimeSliceMap.index, hnone]
  have hhead : (rest ++ [pid]).head (by simp) = rest.headD pid := by
    cases rest <;> rfl
  have hentry : ((s.timeSliceMap.assign pid (-1)).assign (rest.headD pid) s.quantum) pid
      = some (if rest.headD pid = pid then s.quantum else -1) := by
    by_cases hh : rest.headD pid = pid
    · rw [if_pos hh, hh, TimeSliceMap.assign_same]
    · rw [if_neg hh, TimeSliceMap.assign_other _ _ _ _ (Ne.symm hh), TimeSliceMap.assign_same]
  rw [dispatch_of_exhausted IDLE s pid rest hq (by omega), hidx, hhead]
  refine ⟨rfl, rfl, ?_, rfl, hentry, ?_, rfl⟩
  · intro hr
    rw [hq, hr]
    rfl
  · intro heq
    have h1 := congrFun heq pid
    simp only at h1
    have h2 : some (if rest.headD pid = pid then s.quantum else -1) = (none : Option Int) :=
      hentry.symm.trans (h1.trans hnone)
    exact absurd h2 (by simp)

theorem dispatch_missing_entry_rotates_witness :
    orphanState.readyQueue = 1 :: [2] ∧ orphanState.timeSliceMap 1 = none ∧
      ((dispatch 0 orphanState).1 = [(2 : Pid)].headD 1 ∧
        (dispatch 0 orphanState).2.readyQueue = [2] ++ [1] ∧
        (([2] : List Pid) = [] → (dispatch 0 orphanState).2.readyQueue = orphanState.readyQueue) ∧
        (dispatch 0 orphanState).2.timeSliceMap
          = (orphanState.timeSliceMap.assign 1 (-1)).assign ([(2 : Pid)].headD 1)
              orphanState.quantum ∧
        (dispatch 0 orphanState).2.timeSliceMap 1
          = some (if [(2 : Pid)].headD 1 = 1 then orphanState.quantum else -1) ∧
        (dispatch 0 orphanState).2.timeSliceMap ≠ orphanState.timeSliceMap ∧
        (dispatch 0 orphanState).2.quantum = orphanState.quantum) :=
  ⟨rfl, rfl, dispatch_missing_entry_rotates 0 orphanState 1 [2] rfl rfl⟩

/-- C17: for quantum Q ≥ 1 and a non-empty list ps of n submitted pids, the k-th
dispatch call, counted from k = 1, returns the pid of index (k / Q) % n of ps;
hence calls 1 .. Q - 1 return the first pid (only Q - 1 calls), and for every
t ≥ 1 the Q calls t * Q .. t * Q + Q - 1 return the pid of index t % n. -/
theorem dispatch_sequence_closed_form (IDLE : Pid) (Q : Nat) (hQ : 1 ≤ Q) (ps : List Pid)
    (hne : ps ≠ []) :
    (∀ k : Nat, 1 ≤ k →
        ps[(k / Q) % ps.length]? = some (nthDispatch IDLE (submit (new Q) ps) (k - 1))) ∧
      (∀ k : Nat, 1 ≤ k → k < Q →
        ps[0]? = some (nthDispatch IDLE (submit (new Q) ps) (k - 1))) ∧
      (∀ t r : Nat, 1 ≤ t → r < Q →
        ps[t % ps.length]? = some (nthDispatch IDLE (submit (new Q) ps) (t * Q + r - 1))) := by
  have hmain : ∀ k : Nat, 1 ≤ k →
      ps[(k / Q) % ps.length]? = some (nthDispatch IDLE (submit (new Q) ps) (k - 1)) := by
    intro k hk
    have h := nthDispatch_submit IDLE Q hQ ps hne (k - 1)
    have e : k - 1 + 1 = k := by omega
    rw [e] at h
    exact h
  refine ⟨hmain, ?_, ?_⟩
  · intro k hk hkQ
    have h := hmain k hk
    rw [Nat.div_eq_of_lt hkQ, Nat.zero_mod] at h
    exact h
  · intro t r ht hr
    have hpos : 1 ≤ t * Q + r := by
      have : 1 ≤ t * Q := Nat.mul_pos ht hQ
      omega
    have h := hmain (t * Q + r) hpos
    have hdiv : (t * Q + r) / Q = t := by
      rw [Nat.add_comm, Nat.add_mul_div_right _ _ hQ, Nat.div_eq_of_lt hr, Nat.zero_add]
    rw [hdiv] at h
    exact h

theorem dispatch_sequence_closed_form_witness :
    1 ≤ 2 ∧ [(4 : Pid), 9, 6] ≠ [] ∧
      ((∀ k : Nat, 1 ≤ k →
          [(4 : Pid), 9, 6][(k / 2) % [(4 : Pid), 9, 6].length]?
            = some (nthDispatch 0 (submit (new (2 : Nat)) [4, 9, 6]) (k - 1))) ∧
        (∀ k : Nat, 1 ≤ k → k < 2 →
          [(4 : Pid), 9, 6][0]?
            = some (nthDispatch 0 (submit (new (2 : Nat)) [4, 9, 6]) (k - 1))) ∧
        (∀ t r : Nat, 1 ≤ t → r < 2 →
          [(4 : Pid), 9, 6][t % [(4 : Pid), 9, 6].length]?
            = some (nthDispatch 0 (submit (new (2 : Nat)) [4, 9, 6]) (t * 2 + r - 1)))) :=
  ⟨by decide, by decide,
    dispatch_sequence_closed_form 0 2 (by decide) [4, 9, 6] (by decide)⟩

/-- C18: for every quantum (in particular every Q ≥ 1) and every sequence of
newProcess, dispatch, preempt and resetPolicy calls applied to a freshly
constructed policy, the source, which resets the entry of the new head, and the
algorithm of the spec, which resets the entry of the exhausted pid, return the
same values from all calls (so from every dispatch call) and have the same ready
queue after the sequence and after each of its initial segments. -/
theorem dispatch_refines_spec_algorithm (IDLE : Pid) (quantum : Int) (cs : List Call) :
    (runCalls IDLE (new quantum) cs).1 = (specRunCalls IDLE (new quantum) cs).1 ∧
      (runCalls IDLE (new quantum) cs).2.readyQueue
        = (specRunCalls IDLE (new quantum) cs).2.readyQueue ∧
      (∀ n : Nat,
        (runCalls IDLE (new quantum) (cs.take n)).1
            = (specRunCalls IDLE (new quantum) (cs.take n)).1 ∧
          (runCalls IDLE (new quantum) (cs.take n)).2.readyQueue
            = (specRunCalls IDLE (new quantum) (cs.take n)).2.readyQueue) := by
  have hinit : SameSchedule (new quantum) (new quantum) := by
    refine ⟨rfl, rfl, ?_⟩
    intro h t ht
    simp [new, resetPolicy] at ht
  have hrun : ∀ l : List Call,
      (runCalls IDLE (new quantum) l).1 = (specRunCalls IDLE (new quantum) l).1 ∧
        (runCalls IDLE (new quantum) l).2.readyQueue
          = (specRunCalls IDLE (new quantum) l).2.readyQueue := by
    intro l
    obtain ⟨h1, h2, -⟩ := sameSchedule_run IDLE l _ _ hinit
    exact ⟨h1, h2⟩
  exact ⟨(hrun cs).1, (hrun cs).2, fun n => hrun (cs.take n)⟩
